import Mathlib

/-!
Verification of the Terra SecUtil secure-memory library (C++ sources under
`src/`).  The development shallowly embeds the library:

* memory is a total map from byte addresses to byte values (`Mem`);
* the raw erase primitive `SecureErase` (src/src/secure_erase.cpp) is a pure
  function on `Mem`;
* heap-manipulating operations (allocator deallocation and the deleters of
  src/include/terra/secutil/secure_deleter.h) operate on a `Heap`, which
  couples the memory with a trace of observable events (each invocation of
  the erase primitive and each return of storage to the system allocator);
* fallible operations (`SecureAllocator::allocate`, the `SecureArray`
  initializer-list constructor) return `Except`.

Pointers are modelled as `Option Nat`: `none` is the null pointer, `some a`
is address `a`.  Element sizes (`sizeof(T)`) are explicit `Nat` parameters.
-/

namespace Terra.SecUtil

/-- Byte-addressed memory: a total map from addresses to byte values. -/
def Mem : Type := Nat → Nat

/-- The raw erase primitive, from src/src/secure_erase.cpp lines 55-69:
`if ((buffer == nullptr) || (length == 0)) return;` and otherwise a
non-elidable `memset(buffer, 0, length)` (via `SecureZeroMemory`,
`memset_s`, `explicit_bzero` or the volatile function pointer, all of which
zero exactly `length` bytes starting at `buffer`). -/
def SecureErase (mem : Mem) (buffer : Option Nat) (length : Nat) : Mem :=
  match buffer with
  | none => mem
  | some addr =>
    if length = 0 then mem
    else fun a => if addr ≤ a ∧ a < addr + length then 0 else mem a

theorem SecureErase_null (mem : Mem) (length : Nat) :
    SecureErase mem none length = mem := rfl

theorem SecureErase_zero (mem : Mem) (buffer : Option Nat) :
    SecureErase mem buffer 0 = mem := by
  cases buffer <;> simp [SecureErase]

theorem SecureErase_in_range (mem : Mem) (addr length a : Nat)
    (h1 : addr ≤ a) (h2 : a < addr + length) :
    SecureErase mem (some addr) length a = 0 := by
  have hlen : length ≠ 0 := by omega
  simp only [SecureErase, if_neg hlen]
  exact if_pos ⟨h1, h2⟩

theorem SecureErase_out_of_range (mem : Mem) (addr length a : Nat)
    (h : a < addr ∨ addr + length ≤ a) :
    SecureErase mem (some addr) length a = mem a := by
  by_cases hlen : length = 0
  · simp [SecureErase, hlen]
  · simp only [SecureErase, if_neg hlen]
    have : ¬(addr ≤ a ∧ a < addr + length) := by omega
    exact if_neg this

/-- C1: For every pointer buffer and every length: if buffer is null or
length is zero, `SecureErase(buffer, length)` changes no memory and returns
normally; otherwise it sets every byte in `[buffer, buffer+length)` to zero
(and touches no byte outside that range).  `SecureErase` is a total Lean
function over all (pointer, length) pairs, so it never fails. -/
theorem secure_erase_contract (mem : Mem) (buffer : Option Nat) (length : Nat) :
    ((buffer = none ∨ length = 0) → SecureErase mem buffer length = mem) ∧
    (∀ addr, buffer = some addr → 0 < length →
      (∀ a, addr ≤ a → a < addr + length →
        SecureErase mem buffer length a = 0) ∧
      (∀ a, a < addr ∨ addr + length ≤ a →
        SecureErase mem buffer length a = mem a)) := by
  refine ⟨?_, ?_⟩
  · rintro (rfl | rfl)
    · exact SecureErase_null mem length
    · exact SecureErase_zero mem buffer
  · rintro addr rfl hpos
    exact ⟨fun a h1 h2 => SecureErase_in_range mem addr length a h1 h2,
           fun a h => SecureErase_out_of_range mem addr length a h⟩

/-- Concrete instantiation of `secure_erase_contract`: erasing 2 bytes at
address 3 of the constant-5 memory zeroes addresses 3 and 4 and leaves
address 5 at its old value; the null and zero-length calls are no-ops. -/
theorem secure_erase_contract_witness :
    SecureErase (fun _ => 5) none 7 = (fun _ => 5) ∧
    SecureErase (fun _ => 5) (some 3) 0 = (fun _ => 5) ∧
    SecureErase (fun _ => 5) (some 3) 2 4 = 0 ∧
    SecureErase (fun _ => 5) (some 3) 2 5 = 5 := by
  refine ⟨(secure_erase_contract (fun _ => 5) none 7).1 (Or.inl rfl),
          (secure_erase_contract (fun _ => 5) (some 3) 0).1 (Or.inr rfl),
          ((secure_erase_contract (fun _ => 5) (some 3) 2).2 3 rfl
            (by decide)).1 4 (by decide) (by decide),
          ((secure_erase_contract (fun _ => 5) (some 3) 2).2 3 rfl
            (by decide)).2 5 (by decide)⟩

/-!
## SecureArray construction (src/include/terra/secutil/secure_array.h)

`SecureArray<T, N>` derives from `std::array<T, N>`.  Its initializer-list
constructor (lines 46-54) throws `std::invalid_argument` whenever
`list.size() != N`; otherwise `std::copy` writes the `N` supplied values
over the whole base array, so the constructed contents are exactly the
initializer values.  Elements are modelled as `Nat` (the type-trait gate
restricts `T` to arithmetic/enum/pointer types). -/

/-- The `SecureArray<T, N>` initializer-list constructor: `Except.error` is
the thrown `std::invalid_argument` (no object is produced); `Except.ok`
carries the element contents of the constructed array. -/
def secureArrayInitList (N : Nat) (list : List Nat) :
    Except String (List Nat) :=
  if list.length ≠ N then
    Except.error "Initializer list does not match the array size"
  else
    Except.ok list

theorem secureArrayInitList_ok_iff (N : Nat) (list : List Nat) :
    (∃ a, secureArrayInitList N list = Except.ok a) ↔ list.length = N := by
  unfold secureArrayInitList
  by_cases h : list.length = N <;> simp [h]

/-- C2 counterexample: the claim says construction from an initializer of
length k ≤ N succeeds, with the remaining N - k elements value-initialized.
At N = 2 and initializer `{1}` (k = 1 ≤ 2) the constructor instead throws
`std::invalid_argument`: the guard is `list.size() != N`, not
`list.size() > N`. -/
theorem secureArrayInitList_short_fails :
    (1:Nat) ≤ 2 ∧
    secureArrayInitList 2 [1] =
      Except.error "Initializer list does not match the array size" :=
  ⟨by decide, rfl⟩

/-- C2 (amended): constructing a `SecureArray<T, N>` from an initializer
sequence of length k succeeds exactly when k = N, with the elements equal
to the initializer values; construction fails with `std::invalid_argument`
if and only if k ≠ N, and on failure no partial object is produced (the
constructor returns no value). -/
theorem secureArrayInitList_contract (N : Nat) (list : List Nat) :
    ((∃ a, secureArrayInitList N list = Except.ok a) ↔ list.length = N) ∧
    (∀ a, secureArrayInitList N list = Except.ok a → a = list) ∧
    (list.length ≠ N →
      secureArrayInitList N list =
        Except.error "Initializer list does not match the array size") := by
  refine ⟨secureArrayInitList_ok_iff N list, ?_, ?_⟩
  · intro a ha
    unfold secureArrayInitList at ha
    by_cases h : list.length = N
    · simp [h] at ha
      exact ha.symm
    · simp [h] at ha
  · intro h
    unfold secureArrayInitList
    simp [h]

/-- Concrete instantiation of `secureArrayInitList_contract` at N = 3:
`{1,2,3}` constructs successfully with exactly those elements, and `{1,2}`
fails with invalid-argument. -/
theorem secureArrayInitList_contract_witness :
    secureArrayInitList 3 [1, 2, 3] = Except.ok [1, 2, 3] ∧
    secureArrayInitList 3 [1, 2] =
      Except.error "Initializer list does not match the array size" := by
  refine ⟨?_, (secureArrayInitList_contract 3 [1, 2]).2.2 (by decide)⟩
  have h := (secureArrayInitList_contract 3 [1, 2, 3]).1.2 (by decide)
  obtain ⟨a, ha⟩ := h
  have := (secureArrayInitList_contract 3 [1, 2, 3]).2.1 a ha
  rw [ha, this]

/-!
## Heap model with an observable event trace

Heap-manipulating operations are modelled over a `Heap`: the byte memory
together with a trace of the observable actions, namely each invocation of
the erase primitive (with the pointer and byte length it was passed) and
each return of storage to the system allocator (`operator delete`,
`delete[]`, `delete`). -/

/-- An observable heap action. -/
inductive HeapEvent where
  /-- The raw `SecureErase(buffer, length)` function was invoked with these
  arguments (the null / zero-length early return still counts as an
  invocation; it just writes nothing). -/
  | eraseCall (buffer : Option Nat) (length : Nat) : HeapEvent
  /-- Storage at this address was returned to the system allocator. -/
  | free (addr : Nat) : HeapEvent
  deriving DecidableEq, Repr

/-- Memory plus the trace of observable heap actions, oldest first. -/
structure Heap where
  mem : Mem
  events : List HeapEvent

/-- An invocation of the raw erase primitive, as a `Heap` action: records
the call and applies its memory effect. -/
def SecureEraseCall (h : Heap) (buffer : Option Nat) (length : Nat) : Heap :=
  { mem := SecureErase h.mem buffer length,
    events := h.events ++ [HeapEvent.eraseCall buffer length] }

/-- Number of erase-primitive invocations in a trace. -/
def eraseCallCount (evs : List HeapEvent) : Nat :=
  evs.countP fun e =>
    match e with
    | HeapEvent.eraseCall _ _ => true
    | _ => false

theorem eraseCallCount_append (l1 l2 : List HeapEvent) :
    eraseCallCount (l1 ++ l2) = eraseCallCount l1 + eraseCallCount l2 :=
  List.countP_append _ _ _

/-!
## SecureAllocator (src/include/terra/secutil/secure_allocator.h)
-/

/-- The exceptions `SecureAllocator::allocate` can throw. -/
inductive AllocError where
  /-- `std::bad_array_new_length`, thrown by the overflow guard. -/
  | badArrayNewLength : AllocError
  /-- `std::bad_alloc`, thrown by `operator new` on exhaustion. -/
  | badAlloc : AllocError
  deriving DecidableEq, Repr

/-- `SecureAllocator<T>::allocate(n)` (secure_allocator.h lines 68-78).
`sizeofT` is `sizeof(T)`, `sizeMax` is
`std::numeric_limits<std::size_t>::max()`, and `osAlloc` models
`::operator new`: given a byte count it yields the address of fresh
storage, or `none` on exhaustion (which `operator new` reports by throwing
`std::bad_alloc`). -/
def allocate (sizeofT sizeMax : Nat) (osAlloc : Nat → Option Nat)
    (n : Nat) : Except AllocError Nat :=
  if n > sizeMax / sizeofT then
    Except.error AllocError.badArrayNewLength
  else
    match osAlloc (sizeofT * n) with
    | none => Except.error AllocError.badAlloc
    | some p => Except.ok p

/-- `SecureAllocator<T>::deallocate(p, n)` (secure_allocator.h lines
99-109): return on null; erase `sizeof(T) * n` bytes when `n > 0`; then
`::operator delete(p)`. -/
def deallocate (sizeofT : Nat) (h : Heap) (p : Option Nat) (n : Nat) :
    Heap :=
  match p with
  | none => h
  | some addr =>
    let h1 := if 0 < n then SecureEraseCall h (some addr) (sizeofT * n)
              else h
    { mem := h1.mem, events := h1.events ++ [HeapEvent.free addr] }

/-- C3: `SecureAllocator<T>::deallocate(p, n)` with non-null `p` invokes the
erase primitive on exactly `n × sizeof(T)` bytes at `p` — every byte of
`[p, p + n·sizeof(T))` reads zero afterwards, every other byte is
untouched — and then (after the erase, in trace order) returns the storage
to the system allocator; `deallocate(nullptr, n)` is a no-op.  The model is
a total Lean function, so `deallocate` never fails. -/
theorem deallocate_contract (sizeofT : Nat) (h : Heap) (n : Nat) :
    (deallocate sizeofT h none n = h) ∧
    (∀ addr,
      (deallocate sizeofT h (some addr) n).events =
        h.events ++
          (if 0 < n then [HeapEvent.eraseCall (some addr) (sizeofT * n)]
           else []) ++
          [HeapEvent.free addr] ∧
      (∀ a, addr ≤ a → a < addr + sizeofT * n →
        (deallocate sizeofT h (some addr) n).mem a = 0) ∧
      (∀ a, a < addr ∨ addr + sizeofT * n ≤ a →
        (deallocate sizeofT h (some addr) n).mem a = h.mem a)) := by
  refine ⟨rfl, fun addr => ?_⟩
  by_cases hn : 0 < n
  · refine ⟨?_, ?_, ?_⟩
    · simp [deallocate, SecureEraseCall, hn]
    · intro a h1 h2
      have : (deallocate sizeofT h (some addr) n).mem =
          SecureErase h.mem (some addr) (sizeofT * n) := by
        simp [deallocate, SecureEraseCall, hn]
      rw [this]
      exact SecureErase_in_range _ _ _ _ h1 h2
    · intro a ha
      have : (deallocate sizeofT h (some addr) n).mem =
          SecureErase h.mem (some addr) (sizeofT * n) := by
        simp [deallocate, SecureEraseCall, hn]
      rw [this]
      exact SecureErase_out_of_range _ _ _ _ ha
  · have hn0 : n = 0 := by omega
    subst hn0
    refine ⟨by simp [deallocate], ?_, ?_⟩
    · intro a h1 h2
      omega
    · intro a _
      simp [deallocate]

/-- Concrete instantiation of `deallocate_contract`: deallocating 3 elements
of size 2 at address 10 zeroes byte 15, leaves byte 16 at its old value 7,
and traces the erase call (length 6) before the free. -/
theorem deallocate_contract_witness :
    (deallocate 2 ⟨fun _ => 7, []⟩ none 3 = ⟨fun _ => 7, []⟩) ∧
    (deallocate 2 ⟨fun _ => 7, []⟩ (some 10) 3).events =
      [HeapEvent.eraseCall (some 10) 6, HeapEvent.free 10] ∧
    (deallocate 2 ⟨fun _ => 7, []⟩ (some 10) 3).mem 15 = 0 ∧
    (deallocate 2 ⟨fun _ => 7, []⟩ (some 10) 3).mem 16 = 7 := by
  obtain ⟨h1, h2⟩ := deallocate_contract 2 ⟨fun _ => 7, []⟩ 3
  obtain ⟨he, hz, hf⟩ := h2 10
  exact ⟨h1, by simpa using he, hz 15 (by decide) (by decide),
         hf 16 (Or.inr (by decide))⟩

/-- C7: `SecureAllocator<T>::allocate(n)` fails — with an exception surfaced
to the caller — exactly when `n × sizeof(T)` would overflow `size_t`
(the guard `n > SIZE_MAX / sizeof(T)` is equivalent, for positive
`sizeof(T)`, to `sizeof(T) × n > SIZE_MAX`) or the underlying memory
acquisition fails; otherwise it returns the storage `operator new`
acquired for the `n` elements. -/
theorem allocate_contract (sizeofT sizeMax : Nat) (osAlloc : Nat → Option Nat)
    (n : Nat) (hs : 0 < sizeofT) :
    ((∃ e, allocate sizeofT sizeMax osAlloc n = Except.error e) ↔
      (sizeMax < sizeofT * n ∨ osAlloc (sizeofT * n) = none)) ∧
    (∀ p, osAlloc (sizeofT * n) = some p → sizeofT * n ≤ sizeMax →
      allocate sizeofT sizeMax osAlloc n = Except.ok p) := by
  have hguard : (n > sizeMax / sizeofT) ↔ sizeMax < sizeofT * n := by
    rw [gt_iff_lt, Nat.div_lt_iff_lt_mul hs, mul_comm]
  constructor
  · constructor
    · rintro ⟨e, he⟩
      unfold allocate at he
      by_cases hov : n > sizeMax / sizeofT
      · exact Or.inl (hguard.mp hov)
      · simp only [if_neg hov] at he
        cases hos : osAlloc (sizeofT * n) with
        | none => exact Or.inr rfl
        | some p => rw [hos] at he; exact absurd he (by simp)
    · intro hcase
      unfold allocate
      by_cases hov : n > sizeMax / sizeofT
      · exact ⟨AllocError.badArrayNewLength, by simp [hov]⟩
      · rcases hcase with hbig | hexh
        · exact absurd (hguard.mpr hbig) hov
        · exact ⟨AllocError.badAlloc, by simp [hov, hexh]⟩
  · intro p hos hle
    have hov : ¬(n > sizeMax / sizeofT) := fun hc => by
      have := hguard.mp hc; omega
    unfold allocate
    simp [hov, hos]

/-- Concrete instantiation of `allocate_contract` with `sizeof(T) = 4` and
`SIZE_MAX = 15`: requesting 4 elements fails (16 bytes overflow), while
requesting 2 elements succeeds with the address the system allocator
returned. -/
theorem allocate_contract_witness :
    (∃ e, allocate 4 15 (fun b => if b ≤ 8 then some 100 else none) 4 =
      Except.error e) ∧
    allocate 4 15 (fun b => if b ≤ 8 then some 100 else none) 2 =
      Except.ok 100 :=
  ⟨(allocate_contract 4 15 (fun b => if b ≤ 8 then some 100 else none) 4
      (by decide)).1.2 (Or.inl (by decide)),
   (allocate_contract 4 15 (fun b => if b ≤ 8 then some 100 else none) 2
      (by decide)).2 100 (by decide) (by decide)⟩

/-!
## Typed SecureErase overloads (src/include/terra/secutil/secure_erase.h)

Each overload is a one-line delegation to the raw byte-range function; the
model records the pointer the container exposes (`data()`) and the count
the overload reads off the container (`size()` for span/array/vector,
`length()` for `basic_string`). -/

/-- `SecureErase(std::span<T>)` (secure_erase.h lines 75-79):
`SecureErase(values.data(), values.size() * sizeof(T))`. -/
def SecureEraseSpan (sizeofT : Nat) (mem : Mem) (dataPtr : Option Nat)
    (size : Nat) : Mem :=
  SecureErase mem dataPtr (size * sizeofT)

/-- `SecureErase(std::basic_string<T> &)` (secure_erase.h lines 100-104):
`SecureErase(value.data(), value.length() * sizeof(T))`. -/
def SecureEraseString (sizeofT : Nat) (mem : Mem) (dataPtr : Option Nat)
    (length : Nat) : Mem :=
  SecureErase mem dataPtr (length * sizeofT)

/-- `SecureErase(std::array<T, N> &)` (secure_erase.h lines 125-129):
`SecureErase(array.data(), array.size() * sizeof(T))`, with
`array.size() = N`. -/
def SecureEraseStdArray (sizeofT N : Nat) (mem : Mem)
    (dataPtr : Option Nat) : Mem :=
  SecureErase mem dataPtr (N * sizeofT)

/-- `SecureErase(std::vector<T> &)` (secure_erase.h lines 150-154):
`SecureErase(vector.data(), vector.size() * sizeof(T))`. -/
def SecureEraseVector (sizeofT : Nat) (mem : Mem) (dataPtr : Option Nat)
    (size : Nat) : Mem :=
  SecureErase mem dataPtr (size * sizeofT)

/-- C8: every typed `SecureErase` overload delegates to the raw byte-range
`SecureErase` with extent element-count × element-size: `size() × sizeof(T)`
for span, fixed array and vector, and `length() × sizeof(T)` for
`basic_string` — so for a string only the bytes of the first `length()`
characters are erased: any byte at or past `data() + length() × sizeof(T)`
(in particular the unused tail of the capacity) keeps its old value. -/
theorem typed_overloads_delegate (sizeofT : Nat) (mem : Mem)
    (p : Option Nat) (size N len : Nat) :
    SecureEraseSpan sizeofT mem p size = SecureErase mem p (size * sizeofT) ∧
    SecureEraseStdArray sizeofT N mem p = SecureErase mem p (N * sizeofT) ∧
    SecureEraseVector sizeofT mem p size =
      SecureErase mem p (size * sizeofT) ∧
    SecureEraseString sizeofT mem p len =
      SecureErase mem p (len * sizeofT) ∧
    (∀ addr, p = some addr → ∀ a, addr + len * sizeofT ≤ a →
      SecureEraseString sizeofT mem p len a = mem a) := by
  refine ⟨rfl, rfl, rfl, rfl, ?_⟩
  rintro addr rfl a ha
  exact SecureErase_out_of_range mem addr (len * sizeofT) a (Or.inr ha)

/-- Concrete instantiation of `typed_overloads_delegate`: erasing a length-2
string of 1-byte characters stored at address 0 in a larger buffer leaves
the byte at offset 2 (inside the capacity, past the length) unchanged. -/
theorem typed_overloads_delegate_witness :
    SecureEraseString 1 (fun _ => 9) (some 0) 2 2 = 9 :=
  (typed_overloads_delegate 1 (fun _ => 9) (some 0) 0 0 2).2.2.2.2
    0 rfl 2 (by decide)

/-!
## Scalar SecureErase overload (secure_erase.h lines 176-183)

`SecureErase(T &value)` for arithmetic/enum/pointer `T` calls
`SecureErase(&value, sizeof(T))`.  The numeric value a scalar's bytes
denote is read off little-endian; a value of zero is the integer `0`, the
zero-valued enumerator, or the null pointer respectively. -/

/-- The value denoted by `k` bytes at `addr`, read little-endian. -/
def decodeLE (mem : Mem) (addr : Nat) : Nat → Nat
  | 0 => 0
  | k + 1 => mem addr % 256 + 256 * decodeLE mem (addr + 1) k

theorem decodeLE_zero_of_bytes (mem : Mem) (addr k : Nat)
    (h : ∀ i, i < k → mem (addr + i) = 0) :
    decodeLE mem addr k = 0 := by
  induction k generalizing addr with
  | zero => rfl
  | succ k ih =>
    have h0 : mem addr = 0 := by simpa using h 0 (Nat.succ_pos k)
    have htail : ∀ i, i < k → mem (addr + 1 + i) = 0 := fun i hi => by
      have := h (i + 1) (by omega)
      simpa [Nat.add_assoc, Nat.add_comm 1 i] using this
    simp [decodeLE, h0, ih (addr + 1) htail]

/-- `SecureErase(T &value)`: `SecureErase(&value, sizeof(T))`, where the
value lives at `addr` (an object's address is never null). -/
def SecureEraseScalar (sizeofT : Nat) (mem : Mem) (addr : Nat) : Mem :=
  SecureErase mem (some addr) sizeofT

/-- C9: the scalar `SecureErase` overload zeroes exactly the value's own
`sizeof(T)` bytes: afterwards the value's bytes decode to 0 — the integer
0, the zero-valued enumerator, or the null pointer — and every byte outside
`[addr, addr + sizeof(T))` is unchanged; in particular every byte of a
pointee object stored in a disjoint region is unchanged. -/
theorem scalar_erase_contract (sizeofT : Nat) (mem : Mem) (addr : Nat) :
    SecureEraseScalar sizeofT mem addr = SecureErase mem (some addr) sizeofT ∧
    decodeLE (SecureEraseScalar sizeofT mem addr) addr sizeofT = 0 ∧
    (∀ a, a < addr ∨ addr + sizeofT ≤ a →
      SecureEraseScalar sizeofT mem addr a = mem a) ∧
    (∀ q m, addr + sizeofT ≤ q ∨ q + m ≤ addr →
      ∀ i, i < m → SecureEraseScalar sizeofT mem addr (q + i) = mem (q + i)) := by
  refine ⟨rfl, ?_, ?_, ?_⟩
  · refine decodeLE_zero_of_bytes _ addr sizeofT fun i hi => ?_
    exact SecureErase_in_range mem addr sizeofT (addr + i) (by omega) (by omega)
  · intro a ha
    exact SecureErase_out_of_range mem addr sizeofT a ha
  · intro q m hdisj i hi
    exact SecureErase_out_of_range mem addr sizeofT (q + i) (by omega)

/-- Concrete instantiation of `scalar_erase_contract`: an 8-byte pointer at
address 0 decodes to 0 (null) after erasure, while byte 102 of a 4-byte
pointee at address 100 keeps its value 3. -/
theorem scalar_erase_contract_witness :
    decodeLE (SecureEraseScalar 8 (fun _ => 3) 0) 0 8 = 0 ∧
    SecureEraseScalar 8 (fun _ => 3) 0 (100 + 2) = 3 :=
  ⟨(scalar_erase_contract 8 (fun _ => 3) 0).2.1,
   (scalar_erase_contract 8 (fun _ => 3) 0).2.2.2
     100 4 (Or.inl (by decide)) 2 (by decide)⟩

/-!
## Deleters and ownership handles
(src/include/terra/secutil/secure_deleter.h)
-/

/-- `SecureArrayDeleter<T>` (secure_deleter.h lines 51-73): a deleter
carrying the element count of the array it will delete. -/
structure SecureArrayDeleter where
  size : Nat
  deriving DecidableEq, Repr

/-- The default `SecureArrayDeleter` constructor: `size{0}`. -/
def mkSecureArrayDeleter : SecureArrayDeleter := { size := 0 }

/-- `SecureArrayDeleter<T>::operator()(T *array)`:
`SecureErase(array, size * sizeof(T)); delete[] array;` — the erase
primitive is always invoked, and `delete[]` releases the allocation
(a no-op on a null pointer). -/
def SecureArrayDeleter.call (d : SecureArrayDeleter) (sizeofT : Nat)
    (h : Heap) (array : Option Nat) : Heap :=
  let h1 := SecureEraseCall h array (d.size * sizeofT)
  match array with
  | none => h1
  | some a => { mem := h1.mem, events := h1.events ++ [HeapEvent.free a] }

/-- `SecureObjectDeleter<T>` (secure_deleter.h lines 76-94); its `size`
member exists in the source but is never read. -/
structure SecureObjectDeleter where
  size : Nat
  deriving DecidableEq, Repr

/-- `SecureObjectDeleter<T>::operator()(T *object)`:
`SecureErase(object, sizeof(T)); delete object;`. -/
def SecureObjectDeleter.call (sizeofT : Nat) (h : Heap)
    (object : Option Nat) : Heap :=
  let h1 := SecureEraseCall h object sizeofT
  match object with
  | none => h1
  | some a => { mem := h1.mem, events := h1.events ++ [HeapEvent.free a] }

/-- A `std::unique_ptr<T[], SecureArrayDeleter<T>>`: the stored pointer and
the stored deleter. -/
structure UniqueSecureArray where
  ptr : Option Nat
  deleter : SecureArrayDeleter

/-- `MakeUniqueSecureArray<T>(size)` (secure_deleter.h lines 114-121):
wraps `new T[size]` — which yielded the non-null address `newAddr` — with a
`SecureArrayDeleter<T>{size}`. -/
def MakeUniqueSecureArray (size : Nat) (newAddr : Nat) : UniqueSecureArray :=
  { ptr := some newAddr, deleter := { size := size } }

/-- The `std::unique_ptr` destructor: if the stored pointer is non-null,
invoke the stored deleter on it. -/
def UniqueSecureArray.destroy (u : UniqueSecureArray) (sizeofT : Nat)
    (h : Heap) : Heap :=
  match u.ptr with
  | none => h
  | some a => u.deleter.call sizeofT h (some a)

/-- `std::unique_ptr::release()`: detach ownership — return the stored
pointer and the handle with its pointer set to null (the deleter is not
invoked). -/
def UniqueSecureArray.release (u : UniqueSecureArray) :
    Option Nat × UniqueSecureArray :=
  (u.ptr, { u with ptr := none })

/-- C4: a `SecureArrayDeleter<T>` constructed with count s, invoked on an
array at `a`, first invokes the erase primitive on `s × sizeof(T)` bytes at
`a` and then releases the array allocation (the erase precedes the free in
the trace); `MakeUniqueSecureArray<T>(size)` attaches a deleter carrying
exactly `size`, so destroying the handle invokes erasure exactly once,
with extent `size × sizeof(T)`, while releasing the handle early makes the
subsequent destruction a no-op: no erase call at all. -/
theorem unique_secure_array_contract (s sizeofT : Nat) (h : Heap)
    (a size newAddr : Nat) :
    (SecureArrayDeleter.call { size := s } sizeofT h (some a)).events =
      h.events ++ [HeapEvent.eraseCall (some a) (s * sizeofT),
                   HeapEvent.free a] ∧
    (MakeUniqueSecureArray size newAddr).deleter.size = size ∧
    ((MakeUniqueSecureArray size newAddr).destroy sizeofT h).events =
      h.events ++ [HeapEvent.eraseCall (some newAddr) (size * sizeofT),
                   HeapEvent.free newAddr] ∧
    eraseCallCount
        ((MakeUniqueSecureArray size newAddr).destroy sizeofT h).events =
      eraseCallCount h.events + 1 ∧
    ((MakeUniqueSecureArray size newAddr).release.2.destroy sizeofT h = h) := by
  have hcall : ∀ p q,
      (SecureArrayDeleter.call { size := p } sizeofT h (some q)).events =
        h.events ++ [HeapEvent.eraseCall (some q) (p * sizeofT),
                     HeapEvent.free q] := by
    intro p q
    simp [SecureArrayDeleter.call, SecureEraseCall]
  refine ⟨hcall s a, rfl, ?_, ?_, rfl⟩
  · simpa [MakeUniqueSecureArray, UniqueSecureArray.destroy]
      using hcall size newAddr
  · have : ((MakeUniqueSecureArray size newAddr).destroy sizeofT h).events =
        h.events ++ [HeapEvent.eraseCall (some newAddr) (size * sizeofT),
                     HeapEvent.free newAddr] := by
      simpa [MakeUniqueSecureArray, UniqueSecureArray.destroy]
        using hcall size newAddr
    rw [this, eraseCallCount_append]
    rfl

/-- C5: `SecureObjectDeleter<T>` invoked on an object at `a` invokes the
erase primitive on exactly `sizeof(T)` bytes — every byte of
`[a, a + sizeof(T))` reads zero afterwards — then releases the
single-object allocation; every byte outside the object's own member
storage is unchanged, so any disjoint region the object owns indirectly
(e.g. a heap buffer held by a contained resizable array) is untouched by
the erase. -/
theorem object_deleter_contract (sizeofT : Nat) (h : Heap) (a : Nat) :
    (SecureObjectDeleter.call sizeofT h (some a)).events =
      h.events ++ [HeapEvent.eraseCall (some a) sizeofT,
                   HeapEvent.free a] ∧
    (∀ b, a ≤ b → b < a + sizeofT →
      (SecureObjectDeleter.call sizeofT h (some a)).mem b = 0) ∧
    (∀ b, b < a ∨ a + sizeofT ≤ b →
      (SecureObjectDeleter.call sizeofT h (some a)).mem b = h.mem b) ∧
    (∀ q m, a + sizeofT ≤ q ∨ q + m ≤ a →
      ∀ i, i < m →
        (SecureObjectDeleter.call sizeofT h (some a)).mem (q + i) =
          h.mem (q + i)) := by
  have hmem : (SecureObjectDeleter.call sizeofT h (some a)).mem =
      SecureErase h.mem (some a) sizeofT := by
    simp [SecureObjectDeleter.call, SecureEraseCall]
  refine ⟨?_, ?_, ?_, ?_⟩
  · simp [SecureObjectDeleter.call, SecureEraseCall]
  · intro b h1 h2
    rw [hmem]
    exact SecureErase_in_range h.mem a sizeofT b h1 h2
  · intro b hb
    rw [hmem]
    exact SecureErase_out_of_range h.mem a sizeofT b hb
  · intro q m hdisj i hi
    rw [hmem]
    exact SecureErase_out_of_range h.mem a sizeofT (q + i) (by omega)

/-- Concrete instantiation of `object_deleter_contract`: deleting a 4-byte
object at address 8 zeroes byte 11, while bytes 6 and 21 (a 2-byte slice of
an indirectly owned buffer at 20) keep their value 9. -/
theorem object_deleter_contract_witness :
    (SecureObjectDeleter.call 4 ⟨fun _ => 9, []⟩ (some 8)).mem 11 = 0 ∧
    (SecureObjectDeleter.call 4 ⟨fun _ => 9, []⟩ (some 8)).mem 6 = 9 ∧
    (SecureObjectDeleter.call 4 ⟨fun _ => 9, []⟩ (some 8)).mem (20 + 1) = 9 :=
  ⟨(object_deleter_contract 4 ⟨fun _ => 9, []⟩ 8).2.1 11 (by decide)
     (by decide),
   (object_deleter_contract 4 ⟨fun _ => 9, []⟩ 8).2.2.1 6
     (Or.inl (by decide)),
   (object_deleter_contract 4 ⟨fun _ => 9, []⟩ 8).2.2.2 20 2
     (Or.inl (by decide)) 1 (by decide)⟩

/-- C10: a default-constructed `SecureArrayDeleter<T>` carries element
count 0, so invoking it on a non-null array pointer makes an erase call of
length `0 × sizeof(T) = 0` — a no-op — and then frees the array: the
memory contents are intact at the moment the storage is released. -/
theorem default_array_deleter_contract (sizeofT : Nat) (h : Heap) (a : Nat) :
    mkSecureArrayDeleter.size = 0 ∧
    (mkSecureArrayDeleter.call sizeofT h (some a)).mem = h.mem ∧
    (mkSecureArrayDeleter.call sizeofT h (some a)).events =
      h.events ++ [HeapEvent.eraseCall (some a) 0, HeapEvent.free a] := by
  refine ⟨rfl, ?_, ?_⟩
  · have : (0 : Nat) * sizeofT = 0 := Nat.zero_mul sizeofT
    simp [mkSecureArrayDeleter, SecureArrayDeleter.call, SecureEraseCall,
          SecureErase_zero]
  · simp [mkSecureArrayDeleter, SecureArrayDeleter.call, SecureEraseCall]

/-!
## Shared ownership (C6)

`MakeSharedSecureObject` / `MakeSharedSecureArray` (secure_deleter.h lines
194-199 and 141-145) build a `std::shared_ptr` whose custom deleter is the
erasing policy.  `std::shared_ptr` semantics: a reference count starts at 1
on construction, each copy increments it, each reference drop decrements
it, and the stored deleter is invoked exactly once, by the drop that takes
the count from 1 to 0. -/

/-- A `std::shared_ptr` control block whose deleter is one of the erasing
policies: the managed pointer, the reference count, and the deleter's
stored element count (`none` for the single-object policy
`SecureObjectDeleter`, `some s` for `SecureArrayDeleter{s}`). -/
structure SharedSecure where
  ptr : Option Nat
  refcount : Nat
  arraySize : Option Nat

/-- `MakeSharedSecureObject<T>(args...)`: wrap `new T(args...)` — which
yielded address `newAddr` — in a `shared_ptr` with deleter
`SecureObjectDeleter<T>()`; the reference count starts at 1. -/
def MakeSharedSecureObject (newAddr : Nat) : SharedSecure :=
  { ptr := some newAddr, refcount := 1, arraySize := none }

/-- `MakeSharedSecureArray<T>(size)`: wrap `new T[size]` — which yielded
address `newAddr` — in a `shared_ptr` with deleter
`SecureArrayDeleter<T>{size}`; the reference count starts at 1. -/
def MakeSharedSecureArray (size : Nat) (newAddr : Nat) : SharedSecure :=
  { ptr := some newAddr, refcount := 1, arraySize := some size }

/-- Copying the `shared_ptr`: the reference count increments; nothing else
happens. -/
def SharedSecure.addRef (s : SharedSecure) : SharedSecure :=
  { s with refcount := s.refcount + 1 }

/-- Iterated `addRef`. -/
def SharedSecure.addRefN (s : SharedSecure) : Nat → SharedSecure
  | 0 => s
  | k + 1 => (s.addRefN k).addRef

/-- Dropping one reference: if this is the last reference the stored
deleter runs on the managed pointer; otherwise only the count decrements
and the heap is untouched. -/
def SharedSecure.dropRef (s : SharedSecure) (sizeofT : Nat) (h : Heap) :
    SharedSecure × Heap :=
  if s.refcount ≤ 1 then
    ({ ptr := none, refcount := 0, arraySize := s.arraySize },
     match s.arraySize with
     | none => SecureObjectDeleter.call sizeofT h s.ptr
     | some sz => SecureArrayDeleter.call { size := sz } sizeofT h s.ptr)
  else
    ({ s with refcount := s.refcount - 1 }, h)

/-- Iterated `dropRef`. -/
def SharedSecure.dropRefN (sizeofT : Nat) :
    Nat → SharedSecure × Heap → SharedSecure × Heap
  | 0, sh => sh
  | j + 1, (s, h) => SharedSecure.dropRefN sizeofT j (s.dropRef sizeofT h)

theorem dropRefN_no_effect (sizeofT : Nat) (s : SharedSecure) (h : Heap)
    (j : Nat) (hj : j < s.refcount) :
    (SharedSecure.dropRefN sizeofT j (s, h)).2 = h ∧
    (SharedSecure.dropRefN sizeofT j (s, h)).1.refcount = s.refcount - j ∧
    (SharedSecure.dropRefN sizeofT j (s, h)).1.ptr = s.ptr ∧
    (SharedSecure.dropRefN sizeofT j (s, h)).1.arraySize = s.arraySize := by
  induction j generalizing s with
  | zero => exact ⟨rfl, by simp [SharedSecure.dropRefN], rfl, rfl⟩
  | succ j ih =>
    have hgt : ¬(s.refcount ≤ 1) := by omega
    have hdrop : s.dropRef sizeofT h =
        ({ s with refcount := s.refcount - 1 }, h) := by
      simp [SharedSecure.dropRef, hgt]
    have hj' : j < ({ s with refcount := s.refcount - 1 } :
        SharedSecure).refcount := by
      simp; omega
    have := ih { s with refcount := s.refcount - 1 } hj'
    simp only [SharedSecure.dropRefN, hdrop]
    refine ⟨this.1, ?_, this.2.2.1, this.2.2.2⟩
    rw [this.2.1]
    simp; omega

/-- C6: for a shared handle created by `MakeSharedSecureObject` (resp.
`MakeSharedSecureArray`) and copied to a total of k + 1 references,
dropping any j ≤ k references leaves the heap untouched — no erase call
fires while a live reference remains — and the (k + 1)-st drop, the last
one, invokes the erasing release policy exactly once: the trace gains
exactly one erase call (on `sizeof(T)` bytes for the object policy,
`size × sizeof(T)` bytes for the array policy) followed by the free. -/
theorem shared_secure_contract (sizeofT : Nat) (h : Heap)
    (newAddr size k : Nat) :
    (∀ j, j ≤ k →
      (SharedSecure.dropRefN sizeofT j
        ((MakeSharedSecureObject newAddr).addRefN k, h)).2 = h ∧
      (SharedSecure.dropRefN sizeofT j
        ((MakeSharedSecureArray size newAddr).addRefN k, h)).2 = h) ∧
    (SharedSecure.dropRefN sizeofT (k + 1)
        ((MakeSharedSecureObject newAddr).addRefN k, h)).2.events =
      h.events ++ [HeapEvent.eraseCall (some newAddr) sizeofT,
                   HeapEvent.free newAddr] ∧
    (SharedSecure.dropRefN sizeofT (k + 1)
        ((MakeSharedSecureArray size newAddr).addRefN k, h)).2.events =
      h.events ++ [HeapEvent.eraseCall (some newAddr) (size * sizeofT),
                   HeapEvent.free newAddr] := by
  have haddO : ∀ j, ((MakeSharedSecureObject newAddr).addRefN j).refcount
      = j + 1 ∧ ((MakeSharedSecureObject newAddr).addRefN j).ptr
      = some newAddr ∧
      ((MakeSharedSecureObject newAddr).addRefN j).arraySize = none := by
    intro j
    induction j with
    | zero => exact ⟨rfl, rfl, rfl⟩
    | succ j ih =>
      exact ⟨by simp [SharedSecure.addRefN, SharedSecure.addRef, ih.1],
             ih.2.1, ih.2.2⟩
  have haddA : ∀ j, ((MakeSharedSecureArray size newAddr).addRefN j).refcount
      = j + 1 ∧ ((MakeSharedSecureArray size newAddr).addRefN j).ptr
      = some newAddr ∧
      ((MakeSharedSecureArray size newAddr).addRefN j).arraySize
      = some size := by
    intro j
    induction j with
    | zero => exact ⟨rfl, rfl, rfl⟩
    | succ j ih =>
      exact ⟨by simp [SharedSecure.addRefN, SharedSecure.addRef, ih.1],
             ih.2.1, ih.2.2⟩
  have hlast : ∀ s : SharedSecure, s.refcount = 1 → s.ptr = some newAddr →
      ∀ j : Nat, SharedSecure.dropRefN sizeofT (j + 1) (s, h) =
        SharedSecure.dropRefN sizeofT j (s.dropRef sizeofT h) :=
    fun s _ _ j => rfl
  refine ⟨?_, ?_, ?_⟩
  · intro j hj
    constructor
    · exact (dropRefN_no_effect sizeofT _ h j (by rw [(haddO k).1]; omega)).1
    · exact (dropRefN_no_effect sizeofT _ h j (by rw [(haddA k).1]; omega)).1
  · -- object policy: k harmless drops, then the final drop runs the deleter
    have hk := dropRefN_no_effect sizeofT
      ((MakeSharedSecureObject newAddr).addRefN k) h k
      (by rw [(haddO k).1]; omega)
    have hsplit : SharedSecure.dropRefN sizeofT (k + 1)
        ((MakeSharedSecureObject newAddr).addRefN k, h) =
        SharedSecure.dropRefN sizeofT 1
          (SharedSecure.dropRefN sizeofT k
            ((MakeSharedSecureObject newAddr).addRefN k, h)) := by
      clear hk
      generalize ((MakeSharedSecureObject newAddr).addRefN k, h) = sh
      induction k generalizing sh with
      | zero => rfl
      | succ k ih =>
        obtain ⟨s, hh⟩ := sh
        simp only [SharedSecure.dropRefN]
        exact ih _
    rw [hsplit]
    obtain ⟨hheap, hcount, hptr, hsz⟩ := hk
    obtain ⟨sk, hk'⟩ : ∃ sk, SharedSecure.dropRefN sizeofT k
        ((MakeSharedSecureObject newAddr).addRefN k, h) = sk :=
      ⟨_, rfl⟩
    rw [hk'] at hheap hcount hptr hsz ⊢
    obtain ⟨s1, h1⟩ := sk
    simp only at hheap hcount hptr hsz
    rw [hheap]
    have hc1 : s1.refcount = 1 := by
      rw [hcount, (haddO k).1]; omega
    have hp1 : s1.ptr = some newAddr := by rw [hptr, (haddO k).2.1]
    have hs1 : s1.arraySize = none := by rw [hsz, (haddO k).2.2]
    show (SharedSecure.dropRefN sizeofT 1 (s1, h)).2.events = _
    simp only [SharedSecure.dropRefN, SharedSecure.dropRef, hc1, hs1, hp1,
               le_refl, if_pos]
    simp [SecureObjectDeleter.call, SecureEraseCall]
  · -- array policy, same argument
    have hk := dropRefN_no_effect sizeofT
      ((MakeSharedSecureArray size newAddr).addRefN k) h k
      (by rw [(haddA k).1]; omega)
    have hsplit : SharedSecure.dropRefN sizeofT (k + 1)
        ((MakeSharedSecureArray size newAddr).addRefN k, h) =
        SharedSecure.dropRefN sizeofT 1
          (SharedSecure.dropRefN sizeofT k
            ((MakeSharedSecureArray size newAddr).addRefN k, h)) := by
      clear hk
      generalize ((MakeSharedSecureArray size newAddr).addRefN k, h) = sh
      induction k generalizing sh with
      | zero => rfl
      | succ k ih =>
        obtain ⟨s, hh⟩ := sh
        simp only [SharedSecure.dropRefN]
        exact ih _
    rw [hsplit]
    obtain ⟨hheap, hcount, hptr, hsz⟩ := hk
    obtain ⟨sk, hk'⟩ : ∃ sk, SharedSecure.dropRefN sizeofT k
        ((MakeSharedSecureArray size newAddr).addRefN k, h) = sk :=
      ⟨_, rfl⟩
    rw [hk'] at hheap hcount hptr hsz ⊢
    obtain ⟨s1, h1⟩ := sk
    simp only at hheap hcount hptr hsz
    rw [hheap]
    have hc1 : s1.refcount = 1 := by
      rw [hcount, (haddA k).1]; omega
    have hp1 : s1.ptr = some newAddr := by rw [hptr, (haddA k).2.1]
    have hs1 : s1.arraySize = some size := by rw [hsz, (haddA k).2.2]
    show (SharedSecure.dropRefN sizeofT 1 (s1, h)).2.events = _
    simp only [SharedSecure.dropRefN, SharedSecure.dropRef, hc1, hs1, hp1,
               le_refl, if_pos]
    simp [SecureArrayDeleter.call, SecureEraseCall]

/-- Concrete instantiation of `shared_secure_contract` at 3 references
(k = 2): the first two drops leave the heap untouched; the third produces
exactly the erase call and the free. -/
theorem shared_secure_contract_witness :
    (SharedSecure.dropRefN 4 2
      ((MakeSharedSecureObject 50).addRefN 2, ⟨fun _ => 9, []⟩)).2 =
        (⟨fun _ => 9, []⟩ : Heap) ∧
    (SharedSecure.dropRefN 4 3
      ((MakeSharedSecureObject 50).addRefN 2, ⟨fun _ => 9, []⟩)).2.events =
        [HeapEvent.eraseCall (some 50) 4, HeapEvent.free 50] ∧
    (SharedSecure.dropRefN 4 3
      ((MakeSharedSecureArray 10 50).addRefN 2, ⟨fun _ => 9, []⟩)).2.events =
        [HeapEvent.eraseCall (some 50) 40, HeapEvent.free 50] := by
  obtain ⟨hno, hobj, harr⟩ :=
    shared_secure_contract 4 (⟨fun _ => 9, []⟩ : Heap) 50 10 2
  exact ⟨(hno 2 (by decide)).1, by simpa using hobj, by simpa using harr⟩

end Terra.SecUtil
